import Mathlib

/-!
Shallow embedding of `cs336_basics` (files `tokenizer.py` and
`pretokenization_example.py`): byte-level tokenizers, the BPE merge engine,
and the chunk-boundary finder, together with theorems settling the spec
claims about them.

Python strings are modelled as Lean `String` (lists of Unicode scalar
values), Python `bytes` and id sequences as `List Nat`, Python `dict.get`
as a function into `Option`, and Python exceptions as explicit error
results (`Except`/`Option`).
-/

namespace CS336

/-- Python runtime errors raised by the code under `src/`
(`ZeroDivisionError` from `a / 0`, `IndexError` from indexing an empty
list). -/
inductive PyErr where
  | zeroDivisionError
  | indexError
  deriving DecidableEq, Repr

/-- The two failure modes of `BytePairEncodingTokenizer.decode`
(tokenizer.py:53-56): a missing vocabulary id (Python raises `TypeError`
when `b"".join` meets the `None` returned by `dict.get`) and invalid UTF-8
(Python raises `UnicodeDecodeError`). These realise the spec's
`UnknownTokenError` / `DecodeError` taxonomy. -/
inductive TokErr where
  | unknownToken
  | decodeError
  deriving DecidableEq, Repr

/-! ## UTF-8 model

Model of Python's `str.encode("utf-8")` / `bytes.decode("utf-8")`,
used by `tokenizer.py` via `string.encode("utf-8")` (lines 31, 47) and
`.decode("utf-8")` (lines 36, 55). One Unicode scalar value `c` encodes to
1-4 bytes by the standard UTF-8 layout; decoding is strict (rejects
stray continuation bytes, overlong forms, surrogates and out-of-range
scalars), as CPython's `utf-8` codec is. -/

/-- UTF-8 encoding of one Unicode scalar value (given as a `Nat`). -/
def utf8EncodeCharNat (c : Nat) : List Nat :=
  if c < 0x80 then [c]
  else if c < 0x800 then
    [0xC0 + c / 0x40, 0x80 + c % 0x40]
  else if c < 0x10000 then
    [0xE0 + c / 0x1000, 0x80 + (c / 0x40) % 0x40, 0x80 + c % 0x40]
  else
    [0xF0 + c / 0x40000, 0x80 + (c / 0x1000) % 0x40, 0x80 + (c / 0x40) % 0x40, 0x80 + c % 0x40]

/-- Model of `list(map(int, string.encode("utf-8")))` (tokenizer.py:31,47):
the UTF-8 bytes of a string, as a list of integers. -/
def utf8Bytes (s : String) : List Nat :=
  s.data.flatMap (fun c => utf8EncodeCharNat c.toNat)

/-- Strict UTF-8 decoding of a byte list to the list of Unicode scalar
values, `none` on ill-formed input: the accept/reject behaviour of
Python's `bytes.decode("utf-8")`. Guards reject continuation bytes out of
range, overlong encodings (`0xC2 ≤ b` for two-byte forms, `0x800 ≤ v`,
`0x10000 ≤ v`), surrogates and scalars above `0x10FFFF`. -/
def utf8DecodeOne : List Nat → Option (Nat × List Nat)
  | [] => none
  | b :: rest =>
    if b < 0x80 then some (b, rest)
    else if b < 0xE0 then
      match rest with
      | b1 :: rest' =>
        if 0xC2 ≤ b ∧ 0x80 ≤ b1 ∧ b1 < 0xC0 then
          some ((b - 0xC0) * 0x40 + (b1 - 0x80), rest')
        else none
      | [] => none
    else if b < 0xF0 then
      match rest with
      | b1 :: b2 :: rest' =>
        let v := (b - 0xE0) * 0x1000 + (b1 - 0x80) * 0x40 + (b2 - 0x80)
        if 0x80 ≤ b1 ∧ b1 < 0xC0 ∧ 0x80 ≤ b2 ∧ b2 < 0xC0 ∧
            0x800 ≤ v ∧ ¬ (0xD800 ≤ v ∧ v < 0xE000) then
          some (v, rest')
        else none
      | _ => none
    else if b < 0xF8 then
      match rest with
      | b1 :: b2 :: b3 :: rest' =>
        let v := (b - 0xF0) * 0x40000 + (b1 - 0x80) * 0x1000 + (b2 - 0x80) * 0x40 + (b3 - 0x80)
        if 0x80 ≤ b1 ∧ b1 < 0xC0 ∧ 0x80 ≤ b2 ∧ b2 < 0xC0 ∧ 0x80 ≤ b3 ∧ b3 < 0xC0 ∧
            0x10000 ≤ v ∧ v < 0x110000 then
          some (v, rest')
        else none
      | _ => none
    else none

set_option maxRecDepth 8192 in
/-- Strict UTF-8 decoding of a whole byte list: repeat `utf8DecodeOne`
until the input is exhausted, failing as soon as one step fails. -/
def utf8DecodeNats (bs : List Nat) : Option (List Nat) :=
  match bs with
  | [] => some []
  | b :: rest =>
    match h : utf8DecodeOne (b :: rest) with
    | none => none
    | some (v, rest') => (utf8DecodeNats rest').map (fun pts => v :: pts)
termination_by bs.length
decreasing_by
  simp only [utf8DecodeOne] at h
  repeat' split at h
  all_goals try cases h
  all_goals simp only [List.length_cons]
  all_goals omega

/-! ## Tokenizer variants (tokenizer.py) -/

/-- Model of `CharacterTokenizer.encode` (tokenizer.py:21-22):
`list(map(ord, string))`, one integer code point per character. -/
def char_encode (string : String) : List Nat :=
  string.data.map (fun c => c.toNat)

/-- Model of `CharacterTokenizer.decode` (tokenizer.py:24-25):
`"".join(map(chr, indices))`. `chr` raises `ValueError` outside the
Unicode range, modelled by the validity guard; Lean's `Char` is a Unicode
scalar value, so (unlike CPython `chr`) surrogate ordinals are also
outside this model's domain. -/
def char_decode (indices : List Nat) : Option String :=
  if indices.all (fun n => decide (Nat.isValidChar n)) then
    some ⟨indices.map Char.ofNat⟩
  else none

/-- Model of `ByteTokenizer.encode` (tokenizer.py:30-32):
`list(map(int, string.encode("utf-8")))`. -/
def byte_encode (string : String) : List Nat :=
  utf8Bytes string

/-- Model of `ByteTokenizer.decode` (tokenizer.py:34-37):
`bytes(indices).decode("utf-8")`. `bytes(...)` raises `ValueError`
unless every element is in `[0, 256)`; `.decode("utf-8")` raises
`UnicodeDecodeError` on ill-formed UTF-8. Both failures are `none`. -/
def byte_decode (indices : List Nat) : Option String :=
  if indices.all (fun n => n < 256) then
    (utf8DecodeNats indices).map (fun pts => ⟨pts.map Char.ofNat⟩)
  else none

/-! ## BPE merge engine (tokenizer.py) -/

/-- The `while i < len(indices)` loop of `merge` (tokenizer.py:60-68),
with `i` the scan index and `new_indices` the accumulator: a matching
adjacent pair appends `new_index` and advances by 2, otherwise the
current element is appended and the scan advances by 1. -/
def mergeGo (indices : List Nat) (pair : Nat × Nat) (new_index : Nat)
    (i : Nat) (new_indices : List Nat) : List Nat :=
  if i < indices.length then
    if i + 1 < indices.length ∧ indices.getD i 0 = pair.1 ∧ indices.getD (i + 1) 0 = pair.2 then
      mergeGo indices pair new_index (i + 2) (new_indices ++ [new_index])
    else
      mergeGo indices pair new_index (i + 1) (new_indices ++ [indices.getD i 0])
  else new_indices
termination_by indices.length - i
decreasing_by
  all_goals omega

/-- Model of `merge` (tokenizer.py:58-69): one left-to-right non-overlapping
replacement pass of `pair` by `new_index`. -/
def merge (indices : List Nat) (pair : Nat × Nat) (new_index : Nat) : List Nat :=
  mergeGo indices pair new_index 0 []

/-- The spec's description of one merge pass (§4.2 step 2), stated as a
direct recursion: wherever two adjacent elements equal the rule's pair
they are replaced by `new_index` and the scan resumes after both consumed
elements; otherwise the scan advances by one. Used to check `merge`
against the spec's words. -/
def mergePassSpec : List Nat → Nat × Nat → Nat → List Nat
  | a :: b :: rest, pair, new_index =>
    if a = pair.1 ∧ b = pair.2 then
      new_index :: mergePassSpec rest pair new_index
    else
      a :: mergePassSpec (b :: rest) pair new_index
  | l, _, _ => l

/-- Number of (non-overlapping, left-to-right) matches of `pair` that one
merge pass replaces. -/
def matchCount : List Nat → Nat × Nat → Nat
  | a :: b :: rest, pair =>
    if a = pair.1 ∧ b = pair.2 then 1 + matchCount rest pair
    else matchCount (b :: rest) pair
  | _, _ => 0

/-- Model of `BytePairEncodingTokenizer.encode` (tokenizer.py:46-51): seed with
the UTF-8 bytes of the string, then apply `merge` once per rule, in list
order. A merge rule list entry is `(pair, new_index)`. -/
def bpe_encode (merges : List ((Nat × Nat) × Nat)) (string : String) : List Nat :=
  merges.foldl (fun indices r => merge indices r.1 r.2) (utf8Bytes string)

/-- Model of `b"".join(bytes_list)` over the results of `dict.get` lookups
(tokenizer.py:54-55): Python's `join` raises `TypeError` at the first
`None` element, otherwise concatenates in order. -/
def joinBytes : List (Option (List Nat)) → Option (List Nat)
  | [] => some []
  | none :: _ => none
  | some b :: rest => (joinBytes rest).map (fun t => b ++ t)

/-- Model of `BytePairEncodingTokenizer.decode` (tokenizer.py:53-56):
`bytes_list = list(map(self.params.vocab.get, indices))` then
`b"".join(bytes_list).decode("utf-8")`. A missing id makes the join fail
(`TokErr.unknownToken`); ill-formed UTF-8 makes the parse fail
(`TokErr.decodeError`). The vocabulary is modelled by its `dict.get`
function `Nat → Option (List Nat)`. -/
def bpe_decode (vocab : Nat → Option (List Nat)) (indices : List Nat) : Except TokErr String :=
  match joinBytes (indices.map vocab) with
  | none => .error .unknownToken
  | some bs =>
    match utf8DecodeNats bs with
    | none => .error .decodeError
    | some pts => .ok ⟨pts.map Char.ofNat⟩

/-- Model of `get_compression_ratio` (tokenizer.py:71-75): returns
`num_bytes / num_tokens` (Python float division; modelled exactly over
`ℚ`), raising an unhandled `ZeroDivisionError` when `indices` is empty. -/
def get_compression_ratio (string : String) (indices : List Nat) : Except PyErr ℚ :=
  let num_bytes : Nat := (utf8Bytes string).length
  let num_tokens : Nat := indices.length
  if num_tokens = 0 then .error .zeroDivisionError
  else .ok ((num_bytes : ℚ) / (num_tokens : ℚ))

/-! ## Chunk-boundary finder (pretokenization_example.py)

The seekable byte source is modelled as the list of its bytes;
`file.seek`/`file.read(n)` become `List.drop`/`List.take n`, and
`file.tell()` at EOF is `file.length`. -/

/-- Python `bytes.find`: lowest index at which `needle` occurs as a
contiguous block fully inside `hay`, `none` for Python's `-1`. -/
def bfind (hay needle : List Nat) : Option Nat :=
  if needle.isPrefixOf hay then some 0
  else
    match hay with
    | [] => none
    | _ :: t => (bfind t needle).map (fun j => j + 1)

/-- Predicate: `delim` occurs in `file` starting at offset `o`. -/
def occursAt (file delim : List Nat) (o : Nat) : Prop :=
  delim <+: file.drop o

instance (file delim : List Nat) (o : Nat) : Decidable (occursAt file delim o) := by
  unfold occursAt
  infer_instance

/-- The `while True` look-ahead loop of `find_chunk_boundaries`
(pretokenization_example.py:33-47) for one interior boundary. `p` is the
file's read position (advanced by each `file.read`, starting at the seek
to the boundary guess) and `initial_position` the loop's own counter
(advanced by `mini_chunk_size = 4096` per iteration). An empty read
(EOF) yields `file_size`; a hit of `bytes.find` within the 4096-byte
mini chunk yields `initial_position + found_at`; otherwise the loop
continues. -/
def scan_for_delim (file split_special_token : List Nat) (p initial_position : Nat) : Nat :=
  let mini_chunk := (file.drop p).take 4096
  if h : mini_chunk = [] then file.length
  else
    match bfind mini_chunk split_special_token with
    | some found_at => initial_position + found_at
    | none => scan_for_delim file split_special_token (p + mini_chunk.length) (initial_position + 4096)
termination_by file.length - p
decreasing_by
  have hp : p < file.length := by
    by_contra hge
    exact h (by simp [mini_chunk, List.drop_eq_nil_of_le (Nat.le_of_not_lt hge)])
  simp only [mini_chunk, List.length_take, List.length_drop]
  omega

/-- Model of `sorted(set(chunk_boundaries))` (pretokenization_example.py:50):
insertion into a strictly increasing list, dropping duplicates. -/
def sortedInsert (x : Nat) : List Nat → List Nat
  | [] => [x]
  | y :: ys =>
    if x < y then x :: y :: ys
    else if x = y then y :: ys
    else y :: sortedInsert x ys

/-- The ascending duplicate-free list of the elements of `l`:
Python's `sorted(set(l))`. -/
def sortedSet (l : List Nat) : List Nat :=
  l.foldr sortedInsert []

/-- The body of `find_chunk_boundaries` (pretokenization_example.py:6-50)
after the degenerate-`desired_num_chunks` cases are excluded
(`desired_num_chunks = k > 0` here, so the list indexing below is total):
naive uniform guesses `i * chunk_size` for `i = 0..k` with the last entry
forced to `file_size`; each interior entry (`1 ≤ i < k`, i.e. Python's
`range(1, len(chunk_boundaries) - 1)`) is replaced by the look-ahead scan
started at its own naive guess; finally `sorted(set(...))`. The `for`
loop updates each index independently from its original value, rendered
here as a map over the index range. -/
def find_chunk_boundaries_core (file : List Nat) (k : Nat) (split_special_token : List Nat) :
    List Nat :=
  let file_size := file.length
  let chunk_size := file_size / k
  let chunk_boundaries := (List.range (k + 1)).map (fun i =>
    if i = k then file_size
    else if 1 ≤ i ∧ i < k then
      scan_for_delim file split_special_token (i * chunk_size) (i * chunk_size)
    else i * chunk_size)
  sortedSet chunk_boundaries

/-- Model of `find_chunk_boundaries` (pretokenization_example.py:6-50) with
Python's behaviour on non-positive `desired_num_chunks` made explicit:
`desired_num_chunks = 0` raises `ZeroDivisionError` at
`file_size // desired_num_chunks`; `desired_num_chunks < 0` makes the
boundary list comprehension empty (Python `range` of a non-positive
count), so `chunk_boundaries[-1] = file_size` raises `IndexError`. The
`assert isinstance(split_special_token, bytes)` is enforced by the Lean
type of `split_special_token`. -/
def find_chunk_boundaries (file : List Nat) (desired_num_chunks : Int)
    (split_special_token : List Nat) : Except PyErr (List Nat) :=
  if desired_num_chunks = 0 then .error .zeroDivisionError
  else if desired_num_chunks < 0 then .error .indexError
  else .ok (find_chunk_boundaries_core file desired_num_chunks.toNat split_special_token)

/-- The byte source of the C3 counterexample: 8192 zero bytes followed by
the two bytes `1, 1`. With `desired_num_chunks = 2` the single interior
naive guess is `8194 / 2 = 4097`, and the only occurrence of the
delimiter `[1, 1]` (at offset 8192) straddles the boundary between the
first look-ahead window `[4097, 8193)` and the second `[8193, 8194)`. -/
def straddleFile : List Nat :=
  List.replicate 8192 0 ++ [1, 1]

/-- Offset `o` lies, together with `d` following bytes, inside a single
4096-byte look-ahead window of a scan started at `g` (windows begin at
`g`, `g + 4096`, `g + 8192`, ...). -/
def windowContained (d g o : Nat) : Prop :=
  ∃ t, g + 4096 * t ≤ o ∧ o + d ≤ g + 4096 * (t + 1)

/-! ## Lemmas: UTF-8 model -/

theorem char_toNat_valid (c : Char) : Nat.isValidChar c.toNat := c.valid

theorem char_toNat_ofNat {v : Nat} (h : Nat.isValidChar v) : (Char.ofNat v).toNat = v := by
  rw [Char.ofNat, dif_pos h]
  rfl

/-- Every byte that the UTF-8 encoder emits for a Unicode scalar value is
below `0xF5` (in particular below 256). -/
theorem utf8EncodeCharNat_lt {v : Nat} (hv : Nat.isValidChar v) :
    ∀ x ∈ utf8EncodeCharNat v, x < 0xF5 := by
  have hv' : v < 0x110000 := by rcases hv with h | ⟨_, h⟩ <;> omega
  intro x hx
  unfold utf8EncodeCharNat at hx
  split at hx
  · simp only [List.mem_singleton] at hx
    omega
  · split at hx
    · simp only [List.mem_cons, List.not_mem_nil, or_false] at hx
      rcases hx with h | h <;> omega
    · split at hx
      · simp only [List.mem_cons, List.not_mem_nil, or_false] at hx
        rcases hx with h | h | h <;> omega
      · simp only [List.mem_cons, List.not_mem_nil, or_false] at hx
        rcases hx with h | h | h | h <;> omega

/-- Decoding one step on a correctly encoded scalar value consumes
exactly its encoding and yields the value back. -/
theorem utf8DecodeOne_encode {v : Nat} (hv : Nat.isValidChar v) (rest : List Nat) :
    utf8DecodeOne (utf8EncodeCharNat v ++ rest) = some (v, rest) := by
  have hv' : v < 0x110000 := by rcases hv with h | ⟨_, h⟩ <;> omega
  have hs : ¬ (0xD800 ≤ v ∧ v < 0xE000) := by rcases hv with h | ⟨h, _⟩ <;> omega
  by_cases h1 : v < 0x80
  · simp [utf8EncodeCharNat, h1, utf8DecodeOne]
  · by_cases h2 : v < 0x800
    · have e1 : ¬ (0xC0 + v / 0x40 < 0x80) := by omega
      have e2 : 0xC0 + v / 0x40 < 0xE0 := by omega
      have e3 : 0xC2 ≤ 0xC0 + v / 0x40 ∧ 0x80 ≤ 0x80 + v % 0x40 ∧ 0x80 + v % 0x40 < 0xC0 := by
        omega
      have e4 : (0xC0 + v / 0x40 - 0xC0) * 0x40 + (0x80 + v % 0x40 - 0x80) = v := by omega
      simp only [utf8EncodeCharNat, if_neg h1, if_pos h2, List.cons_append, List.nil_append,
        utf8DecodeOne, if_neg e1, if_pos e2, if_pos e3, e4]
    · by_cases h3 : v < 0x10000
      · have e1 : ¬ (0xE0 + v / 0x1000 < 0x80) := by omega
        have e2 : ¬ (0xE0 + v / 0x1000 < 0xE0) := by omega
        have e3 : 0xE0 + v / 0x1000 < 0xF0 := by omega
        have e4 : (0xE0 + v / 0x1000 - 0xE0) * 0x1000 +
            (0x80 + v / 0x40 % 0x40 - 0x80) * 0x40 + (0x80 + v % 0x40 - 0x80) = v := by omega
        simp only [utf8EncodeCharNat, if_neg h1, if_neg h2, if_pos h3, List.cons_append,
          List.nil_append, utf8DecodeOne, if_neg e1, if_neg e2, if_pos e3, e4]
        exact if_pos ⟨by omega, by omega, by omega, by omega, by omega, hs⟩
      · have e1 : ¬ (0xF0 + v / 0x40000 < 0x80) := by omega
        have e2 : ¬ (0xF0 + v / 0x40000 < 0xE0) := by omega
        have e3 : ¬ (0xF0 + v / 0x40000 < 0xF0) := by omega
        have e4 : 0xF0 + v / 0x40000 < 0xF8 := by omega
        have e5 : (0xF0 + v / 0x40000 - 0xF0) * 0x40000 + (0x80 + v / 0x1000 % 0x40 - 0x80) * 0x1000 +
            (0x80 + v / 0x40 % 0x40 - 0x80) * 0x40 + (0x80 + v % 0x40 - 0x80) = v := by omega
        simp only [utf8EncodeCharNat, if_neg h1, if_neg h2, if_neg h3, List.cons_append,
          List.nil_append, utf8DecodeOne, if_neg e1, if_neg e2, if_neg e3, if_pos e4, e5]
        exact if_pos ⟨by omega, by omega, by omega, by omega, by omega, by omega,
          by omega, by omega⟩

theorem utf8EncodeCharNat_ne_nil (v : Nat) : utf8EncodeCharNat v ≠ [] := by
  unfold utf8EncodeCharNat
  split
  · simp
  · split
    · simp
    · split <;> simp

/-- Unfolding the decoding loop by one successful step. -/
theorem utf8DecodeNats_cons {b : Nat} {rest : List Nat} {v : Nat} {rest' : List Nat}
    (h : utf8DecodeOne (b :: rest) = some (v, rest')) :
    utf8DecodeNats (b :: rest) = (utf8DecodeNats rest').map (fun pts => v :: pts) := by
  rw [utf8DecodeNats]
  split
  · rename_i heq
    rw [heq] at h
    cases h
  · rename_i v2 r2 heq
    rw [heq] at h
    injection h with h1
    injection h1 with h2 h3
    rw [h2, h3]

/-- Decoding a correctly encoded scalar value consumes exactly its
encoding and yields the value back (completeness of the strict decoder
on well-formed input). -/
theorem utf8DecodeNats_encode {v : Nat} (hv : Nat.isValidChar v) (rest : List Nat) :
    utf8DecodeNats (utf8EncodeCharNat v ++ rest) =
      (utf8DecodeNats rest).map (fun pts => v :: pts) := by
  cases he : utf8EncodeCharNat v with
  | nil => exact absurd he (utf8EncodeCharNat_ne_nil v)
  | cons b bs =>
    have h1 : utf8DecodeOne (b :: (bs ++ rest)) = some (v, rest) := by
      rw [← List.cons_append, ← he]
      exact utf8DecodeOne_encode hv rest
    rw [List.cons_append]
    exact utf8DecodeNats_cons h1

/-- Decoding the concatenated encodings of a character list gives back
exactly its code points. -/
theorem utf8DecodeNats_flatMap (cs : List Char) :
    utf8DecodeNats (cs.flatMap (fun c => utf8EncodeCharNat c.toNat)) =
      some (cs.map Char.toNat) := by
  induction cs with
  | nil =>
    rw [List.flatMap_nil, utf8DecodeNats]
    rfl
  | cons c cs ih =>
    rw [List.flatMap_cons, utf8DecodeNats_encode (char_toNat_valid c), ih]
    rfl

theorem isValidChar_iff {v : Nat} :
    Nat.isValidChar v ↔ (v < 0xD800 ∨ (0xDFFF < v ∧ v < 0x110000)) :=
  Iff.rfl

/-- A successful decoding step is sound: the consumed bytes are exactly
the UTF-8 encoding of the produced (valid) scalar value. -/
theorem utf8DecodeOne_sound {bs : List Nat} {v : Nat} {rest' : List Nat}
    (h : utf8DecodeOne bs = some (v, rest')) :
    Nat.isValidChar v ∧ bs = utf8EncodeCharNat v ++ rest' := by
  match bs with
  | [] => exact Option.noConfusion h
  | b :: rest =>
    simp only [utf8DecodeOne] at h
    by_cases h1 : b < 0x80
    · rw [if_pos h1] at h
      injection h with h'
      injection h' with hv hr
      subst hv
      subst hr
      exact ⟨isValidChar_iff.mpr (by omega), by simp [utf8EncodeCharNat, h1]⟩
    · rw [if_neg h1] at h
      by_cases h2 : b < 0xE0
      · rw [if_pos h2] at h
        match rest, h with
        | [], h => exact Option.noConfusion h
        | b1 :: rest0, h =>
          simp only at h
          by_cases hg : 0xC2 ≤ b ∧ 0x80 ≤ b1 ∧ b1 < 0xC0
          · rw [if_pos hg] at h
            injection h with h'
            injection h' with hv hr
            subst hv
            subst hr
            refine ⟨isValidChar_iff.mpr (by omega), ?_⟩
            have c1 : ¬ ((b - 0xC0) * 0x40 + (b1 - 0x80) < 0x80) := by omega
            have c2 : (b - 0xC0) * 0x40 + (b1 - 0x80) < 0x800 := by omega
            simp only [utf8EncodeCharNat, if_neg c1, if_pos c2, List.cons_append,
              List.nil_append]
            have d1 : 0xC0 + ((b - 0xC0) * 0x40 + (b1 - 0x80)) / 0x40 = b := by omega
            have d2 : 0x80 + ((b - 0xC0) * 0x40 + (b1 - 0x80)) % 0x40 = b1 := by omega
            rw [d1, d2]
          · rw [if_neg hg] at h
            exact Option.noConfusion h
      · rw [if_neg h2] at h
        by_cases h3 : b < 0xF0
        · rw [if_pos h3] at h
          match rest, h with
          | [], h => exact Option.noConfusion h
          | [b1], h => exact Option.noConfusion h
          | b1 :: b2 :: rest0, h =>
            simp only at h
            by_cases hg : 0x80 ≤ b1 ∧ b1 < 0xC0 ∧ 0x80 ≤ b2 ∧ b2 < 0xC0 ∧
                0x800 ≤ (b - 0xE0) * 0x1000 + (b1 - 0x80) * 0x40 + (b2 - 0x80) ∧
                ¬ (0xD800 ≤ (b - 0xE0) * 0x1000 + (b1 - 0x80) * 0x40 + (b2 - 0x80) ∧
                   (b - 0xE0) * 0x1000 + (b1 - 0x80) * 0x40 + (b2 - 0x80) < 0xE000)
            · rw [if_pos hg] at h
              injection h with h'
              injection h' with hv hr
              subst hv
              subst hr
              refine ⟨isValidChar_iff.mpr (by omega), ?_⟩
              have c1 : ¬ ((b - 0xE0) * 0x1000 + (b1 - 0x80) * 0x40 + (b2 - 0x80) < 0x80) := by
                omega
              have c2 : ¬ ((b - 0xE0) * 0x1000 + (b1 - 0x80) * 0x40 + (b2 - 0x80) < 0x800) := by
                omega
              have c3 : (b - 0xE0) * 0x1000 + (b1 - 0x80) * 0x40 + (b2 - 0x80) < 0x10000 := by
                omega
              simp only [utf8EncodeCharNat, if_neg c1, if_neg c2, if_pos c3, List.cons_append,
                List.nil_append]
              have d1 : 0xE0 + ((b - 0xE0) * 0x1000 + (b1 - 0x80) * 0x40 + (b2 - 0x80)) / 0x1000 = b := by
                omega
              have d2 : 0x80 + ((b - 0xE0) * 0x1000 + (b1 - 0x80) * 0x40 + (b2 - 0x80)) / 0x40 % 0x40 = b1 := by
                omega
              have d3 : 0x80 + ((b - 0xE0) * 0x1000 + (b1 - 0x80) * 0x40 + (b2 - 0x80)) % 0x40 = b2 := by
                omega
              rw [d1, d2, d3]
            · rw [if_neg hg] at h
              exact Option.noConfusion h
        · by_cases h4 : b < 0xF8
          · rw [if_neg h3, if_pos h4] at h
            match rest, h with
            | [], h => exact Option.noConfusion h
            | [b1], h => exact Option.noConfusion h
            | [b1, b2], h => exact Option.noConfusion h
            | b1 :: b2 :: b3 :: rest0, h =>
              simp only at h
              by_cases hg : 0x80 ≤ b1 ∧ b1 < 0xC0 ∧ 0x80 ≤ b2 ∧ b2 < 0xC0 ∧
                  0x80 ≤ b3 ∧ b3 < 0xC0 ∧
                  0x10000 ≤ (b - 0xF0) * 0x40000 + (b1 - 0x80) * 0x1000 + (b2 - 0x80) * 0x40 + (b3 - 0x80) ∧
                  (b - 0xF0) * 0x40000 + (b1 - 0x80) * 0x1000 + (b2 - 0x80) * 0x40 + (b3 - 0x80) < 0x110000
              · rw [if_pos hg] at h
                injection h with h'
                injection h' with hv hr
                subst hv
                subst hr
                refine ⟨isValidChar_iff.mpr (by omega), ?_⟩
                have c1 : ¬ ((b - 0xF0) * 0x40000 + (b1 - 0x80) * 0x1000 + (b2 - 0x80) * 0x40 + (b3 - 0x80) < 0x80) := by
                  omega
                have c2 : ¬ ((b - 0xF0) * 0x40000 + (b1 - 0x80) * 0x1000 + (b2 - 0x80) * 0x40 + (b3 - 0x80) < 0x800) := by
                  omega
                have c3 : ¬ ((b - 0xF0) * 0x40000 + (b1 - 0x80) * 0x1000 + (b2 - 0x80) * 0x40 + (b3 - 0x80) < 0x10000) := by
                  omega
                simp only [utf8EncodeCharNat, if_neg c1, if_neg c2, if_neg c3, List.cons_append,
                  List.nil_append]
                have d1 : 0xF0 + ((b - 0xF0) * 0x40000 + (b1 - 0x80) * 0x1000 + (b2 - 0x80) * 0x40 + (b3 - 0x80)) / 0x40000 = b := by
                  omega
                have d2 : 0x80 + ((b - 0xF0) * 0x40000 + (b1 - 0x80) * 0x1000 + (b2 - 0x80) * 0x40 + (b3 - 0x80)) / 0x1000 % 0x40 = b1 := by
                  omega
                have d3 : 0x80 + ((b - 0xF0) * 0x40000 + (b1 - 0x80) * 0x1000 + (b2 - 0x80) * 0x40 + (b3 - 0x80)) / 0x40 % 0x40 = b2 := by
                  omega
                have d4 : 0x80 + ((b - 0xF0) * 0x40000 + (b1 - 0x80) * 0x1000 + (b2 - 0x80) * 0x40 + (b3 - 0x80)) % 0x40 = b3 := by
                  omega
                rw [d1, d2, d3, d4]
              · rw [if_neg hg] at h
                exact Option.noConfusion h
          · rw [if_neg h3, if_neg h4] at h
            exact Option.noConfusion h

/-- Soundness of the whole decoding loop, stated with an explicit length
bound for the induction. -/
theorem utf8DecodeNats_sound_aux : ∀ (n : Nat) (bs : List Nat), bs.length ≤ n →
    ∀ pts, utf8DecodeNats bs = some pts →
      (∀ v ∈ pts, Nat.isValidChar v) ∧ pts.flatMap utf8EncodeCharNat = bs := by
  intro n
  induction n with
  | zero =>
    intro bs hlen pts h
    have hbs : bs = [] := List.eq_nil_of_length_eq_zero (by omega)
    subst hbs
    rw [utf8DecodeNats] at h
    injection h with h'
    subst h'
    exact ⟨by simp, rfl⟩
  | succ n ih =>
    intro bs hlen pts h
    cases bs with
    | nil =>
      rw [utf8DecodeNats] at h
      injection h with h'
      subst h'
      exact ⟨by simp, rfl⟩
    | cons b rest =>
      rw [utf8DecodeNats] at h
      split at h
      · exact Option.noConfusion h
      · rename_i v r2 heq
        obtain ⟨hval, henc⟩ := utf8DecodeOne_sound heq
        cases hr : utf8DecodeNats r2 with
        | none =>
          rw [hr] at h
          exact Option.noConfusion h
        | some pts' =>
          rw [hr] at h
          injection h with h'
          subst h'
          have hne := utf8EncodeCharNat_ne_nil v
          have hlen2 : r2.length ≤ n := by
            have hL := congrArg List.length henc
            rw [List.length_cons, List.length_append] at hL
            rw [List.length_cons] at hlen
            cases hce : utf8EncodeCharNat v with
            | nil => exact absurd hce hne
            | cons x xs =>
              rw [hce, List.length_cons] at hL
              omega
          obtain ⟨ihval, ihenc⟩ := ih r2 hlen2 pts' hr
          constructor
          · intro w hw
            rcases List.mem_cons.mp hw with hw | hw
            · subst hw
              exact hval
            · exact ihval w hw
          · rw [List.flatMap_cons, ihenc, ← henc]

/-- Soundness of the strict UTF-8 decoder: a successful decode yields
valid scalar values whose re-encoding is exactly the input. -/
theorem utf8DecodeNats_sound {bs pts : List Nat} (h : utf8DecodeNats bs = some pts) :
    (∀ v ∈ pts, Nat.isValidChar v) ∧ pts.flatMap utf8EncodeCharNat = bs :=
  utf8DecodeNats_sound_aux bs.length bs (Nat.le_refl _) pts h

/-! ## Lemmas: the merge pass -/

theorem getD_of_lt (l : List Nat) {i : Nat} (h : i < l.length) : l.getD i 0 = l[i] := by
  rw [List.getD_eq_getElem?_getD, List.getElem?_eq_getElem h]
  rfl

theorem mergePassSpec_nil (pair : Nat × Nat) (n : Nat) : mergePassSpec [] pair n = [] := rfl

theorem mergePassSpec_single (a : Nat) (pair : Nat × Nat) (n : Nat) :
    mergePassSpec [a] pair n = [a] := rfl

/-- The index-and-accumulator loop of `merge` computes the direct
recursion `mergePassSpec` on the part of the list not yet scanned. -/
theorem mergeGo_eq (indices : List Nat) (pair : Nat × Nat) (n : Nat) :
    ∀ (k i : Nat), indices.length - i ≤ k → ∀ acc,
      mergeGo indices pair n i acc = acc ++ mergePassSpec (indices.drop i) pair n := by
  intro k
  induction k with
  | zero =>
    intro i hk acc
    rw [mergeGo, if_neg (by omega), List.drop_eq_nil_of_le (by omega), mergePassSpec_nil,
      List.append_nil]
  | succ k ih =>
    intro i hk acc
    by_cases hi : i < indices.length
    · rw [mergeGo, if_pos hi]
      have hdrop : indices.drop i = indices[i] :: indices.drop (i + 1) :=
        List.drop_eq_getElem_cons hi
      by_cases hc : i + 1 < indices.length ∧ indices.getD i 0 = pair.1 ∧
          indices.getD (i + 1) 0 = pair.2
      · rw [if_pos hc]
        have hdrop2 : indices.drop (i + 1) = indices[i + 1] :: indices.drop (i + 2) :=
          List.drop_eq_getElem_cons hc.1
        rw [ih (i + 2) (by omega) (acc ++ [n]), hdrop, hdrop2, mergePassSpec,
          if_pos ⟨by rw [← getD_of_lt indices hi]; exact hc.2.1,
            by rw [← getD_of_lt indices hc.1]; exact hc.2.2⟩,
          List.append_assoc]
        rfl
      · rw [if_neg hc]
        rw [ih (i + 1) (by omega) (acc ++ [indices.getD i 0]), hdrop]
        cases hdi : indices.drop (i + 1) with
        | nil =>
          have hi1 : indices.length ≤ i + 1 := List.drop_eq_nil_iff.mp hdi
          rw [mergePassSpec_nil, mergePassSpec_single, getD_of_lt indices hi,
            List.append_assoc]
          rfl
        | cons y t =>
          have hi1 : i + 1 < indices.length := by
            by_contra hle
            rw [List.drop_eq_nil_of_le (by omega)] at hdi
            cases hdi
          rw [mergePassSpec, if_neg ?hcond, getD_of_lt indices hi, List.append_assoc]
          · rfl
          case hcond =>
            intro ⟨ha, hb⟩
            apply hc
            refine ⟨hi1, by rw [getD_of_lt indices hi]; exact ha, ?_⟩
            have : indices[i + 1] = y := by
              have := List.drop_eq_getElem_cons (l := indices) hi1
              rw [hdi] at this
              injection this with h1 h2
              exact h1.symm
            rw [getD_of_lt indices hi1, this]
            exact hb
    · rw [mergeGo, if_neg hi, List.drop_eq_nil_of_le (by omega), mergePassSpec_nil,
        List.append_nil]

/-- Theorem: `merge` is exactly the spec's single non-overlapping left-to-right
replacement pass. -/
theorem merge_eq_mergePassSpec (indices : List Nat) (pair : Nat × Nat) (n : Nat) :
    merge indices pair n = mergePassSpec indices pair n := by
  rw [merge, mergeGo_eq indices pair n indices.length 0 (by omega) [], List.drop_zero,
    List.nil_append]

/-- One merge pass shortens the list by exactly the number of
non-overlapping matches it replaces. -/
theorem mergePassSpec_length (pair : Nat × Nat) (n : Nat) :
    ∀ (k : Nat) (l : List Nat), l.length ≤ k →
      (mergePassSpec l pair n).length = l.length - matchCount l pair ∧
      matchCount l pair ≤ l.length := by
  intro k
  induction k with
  | zero =>
    intro l hk
    have : l = [] := List.eq_nil_of_length_eq_zero (by omega)
    subst this
    exact ⟨rfl, by simp [matchCount]⟩
  | succ k ih =>
    intro l hk
    match l with
    | [] => exact ⟨rfl, by simp [matchCount]⟩
    | [a] => exact ⟨rfl, by simp [matchCount]⟩
    | a :: b :: rest =>
      rw [mergePassSpec, matchCount]
      by_cases hc : a = pair.1 ∧ b = pair.2
      · rw [if_pos hc, if_pos hc]
        obtain ⟨ih1, ih2⟩ := ih rest (by simp at hk; omega)
        refine ⟨?_, ?_⟩ <;> simp [List.length_cons, ih1] <;> omega
      · rw [if_neg hc, if_neg hc]
        obtain ⟨ih1, ih2⟩ := ih (b :: rest) (by simp at hk; simp; omega)
        refine ⟨?_, ?_⟩ <;> simp only [List.length_cons, ih1] <;> simp at ih2 ⊢ <;> omega

/-! ## Lemmas: tokenizer round trips and decode failure modes -/

/-- Every byte of the UTF-8 encoding of a string is below `0xF5`. -/
theorem utf8Bytes_lt {s : String} : ∀ x ∈ utf8Bytes s, x < 0xF5 := by
  intro x hx
  rw [utf8Bytes, List.mem_flatMap] at hx
  obtain ⟨c, _, hxc⟩ := hx
  exact utf8EncodeCharNat_lt (char_toNat_valid c) x hxc

theorem char_decode_encode (s : String) : char_decode (char_encode s) = some s := by
  rw [char_decode, char_encode, if_pos]
  · rw [List.map_map]
    have : (Char.ofNat ∘ fun c => c.toNat) = id := by
      funext c
      exact Char.ofNat_toNat c
    rw [this, List.map_id]
  · rw [List.all_eq_true]
    intro x hx
    rw [List.mem_map] at hx
    obtain ⟨c, _, hc⟩ := hx
    subst hc
    exact decide_eq_true (char_toNat_valid c)

theorem byte_decode_encode (s : String) : byte_decode (byte_encode s) = some s := by
  rw [byte_decode, byte_encode, if_pos, utf8Bytes, utf8DecodeNats_flatMap]
  · simp only [Option.map, List.map_map]
    have : (Char.ofNat ∘ Char.toNat) = id := by
      funext c
      exact Char.ofNat_toNat c
    rw [this, List.map_id]
  · rw [List.all_eq_true]
    intro x hx
    exact decide_eq_true (by have := utf8Bytes_lt x hx; omega)

theorem joinBytes_of_mem_none {l : List (Option (List Nat))} (h : none ∈ l) :
    joinBytes l = none := by
  induction l with
  | nil => cases h
  | cons a t ih =>
    cases a with
    | none => rfl
    | some b =>
      rw [joinBytes]
      rcases List.mem_cons.mp h with h' | h'
      · cases h'
      · rw [ih h']
        rfl

theorem joinBytes_of_all_some {l : List (Option (List Nat))} (h : ∀ x ∈ l, x ≠ none) :
    joinBytes l = some (l.map (fun x => x.getD [])).flatten := by
  induction l with
  | nil => rfl
  | cons a t ih =>
    cases a with
    | none => exact absurd rfl (h none (List.mem_cons_self _ _))
    | some b =>
      rw [joinBytes, ih (fun x hx => h x (List.mem_cons_of_mem _ hx))]
      simp only [Option.map, List.map_cons, List.flatten_cons]
      rfl

/-! ## Lemmas: `bfind` and delimiter occurrences -/

theorem bfind_sound {hay needle : List Nat} :
    ∀ {j : Nat}, bfind hay needle = some j → needle <+: hay.drop j := by
  induction hay with
  | nil =>
    intro j h
    rw [bfind] at h
    by_cases hp : needle.isPrefixOf []
    · rw [if_pos hp] at h
      injection h with h'
      subst h'
      exact List.isPrefixOf_iff_prefix.mp hp
    · rw [if_neg hp] at h
      exact Option.noConfusion h
  | cons a t ih =>
    intro j h
    rw [bfind] at h
    by_cases hp : needle.isPrefixOf (a :: t)
    · rw [if_pos hp] at h
      injection h with h'
      subst h'
      exact List.isPrefixOf_iff_prefix.mp hp
    · rw [if_neg hp] at h
      cases hb : bfind t needle with
      | none =>
        rw [hb] at h
        exact Option.noConfusion h
      | some j' =>
        rw [hb] at h
        injection h with h'
        subst h'
        rw [List.drop_succ_cons]
        exact ih hb

theorem bfind_none {hay needle : List Nat} (h : bfind hay needle = none) :
    ∀ j, ¬ needle <+: hay.drop j := by
  induction hay with
  | nil =>
    intro j hj
    rw [List.drop_nil] at hj
    rw [bfind, if_pos (List.isPrefixOf_iff_prefix.mpr hj)] at h
    exact Option.noConfusion h
  | cons a t ih =>
    rw [bfind] at h
    by_cases hp : needle.isPrefixOf (a :: t)
    · rw [if_pos hp] at h
      exact Option.noConfusion h
    · rw [if_neg hp] at h
      intro j hj
      cases j with
      | zero => exact hp (List.isPrefixOf_iff_prefix.mpr hj)
      | succ j' =>
        cases hb : bfind t needle with
        | none =>
          rw [List.drop_succ_cons] at hj
          exact ih hb j' hj
        | some j2 =>
          rw [hb] at h
          exact Option.noConfusion h

theorem occursAt_bound {file delim : List Nat} {o : Nat} (h : occursAt file delim o)
    (hd : delim ≠ []) : o + delim.length ≤ file.length := by
  have hlen : delim.length ≤ (file.drop o).length := h.length_le
  rw [List.length_drop] at hlen
  have hdpos : 0 < delim.length := List.length_pos.mpr hd
  by_cases ho : o ≤ file.length
  · omega
  · omega

/-- An occurrence found inside a read window is an occurrence in the
file, at the window's base offset plus the index found. -/
theorem occursAt_of_chunk {file needle : List Nat} {p m j : Nat}
    (h : needle <+: ((file.drop p).take m).drop j) : occursAt file needle (p + j) := by
  rw [occursAt, ← List.drop_drop]
  calc needle <+: ((file.drop p).take m).drop j := h
    _ <+: (file.drop p).drop j := by
        rw [List.drop_take]
        exact List.take_prefix _ _

/-- An occurrence lying entirely inside a read window is found inside
the window's bytes. -/
theorem chunk_of_occursAt {file needle : List Nat} {p m o : Nat}
    (h : occursAt file needle o) (hpo : p ≤ o)
    (hfit : o + needle.length ≤ p + ((file.drop p).take m).length) :
    needle <+: ((file.drop p).take m).drop (o - p) := by
  rw [List.drop_take, List.drop_drop]
  rw [occursAt] at h
  have ho : p + (o - p) = o := by omega
  rw [ho]
  rw [List.prefix_take_iff]
  refine ⟨h, ?_⟩
  rw [List.length_take, List.length_drop] at hfit
  omega

/-! ## Lemmas: the look-ahead scan -/

theorem scan_eq_of_eof {file tok : List Nat} {p ip : Nat}
    (h : (file.drop p).take 4096 = []) :
    scan_for_delim file tok p ip = file.length := by
  rw [scan_for_delim]
  simp only [dif_pos h]

theorem scan_eq_of_found {file tok : List Nat} {p ip j : Nat}
    (h : (file.drop p).take 4096 ≠ [])
    (hf : bfind ((file.drop p).take 4096) tok = some j) :
    scan_for_delim file tok p ip = ip + j := by
  rw [scan_for_delim]
  simp only [dif_neg h, hf]

theorem scan_eq_of_cont {file tok : List Nat} {p ip : Nat}
    (h : (file.drop p).take 4096 ≠ [])
    (hf : bfind ((file.drop p).take 4096) tok = none) :
    scan_for_delim file tok p ip =
      scan_for_delim file tok (p + ((file.drop p).take 4096).length) (ip + 4096) := by
  rw [scan_for_delim]
  simp only [dif_neg h, hf]

theorem chunk_length_eq {file : List Nat} {p : Nat} :
    ((file.drop p).take 4096).length = min 4096 (file.length - p) := by
  rw [List.length_take, List.length_drop]

theorem chunk_ne_nil_iff {file : List Nat} {p : Nat} :
    (file.drop p).take 4096 ≠ [] ↔ p < file.length := by
  rw [ne_eq, ← List.length_eq_zero, chunk_length_eq]
  omega

/-- Soundness of the look-ahead scan: it returns either the file length
or the start offset of a delimiter occurrence at or after the start
position. -/
theorem scan_sound {file tok : List Nat} (hd : tok ≠ []) :
    ∀ (k p : Nat), file.length - p ≤ k →
      scan_for_delim file tok p p = file.length ∨
      (occursAt file tok (scan_for_delim file tok p p) ∧ p ≤ scan_for_delim file tok p p ∧
        scan_for_delim file tok p p + tok.length ≤ file.length) := by
  intro k
  induction k with
  | zero =>
    intro p hk
    left
    exact scan_eq_of_eof (by rw [← List.length_eq_zero, chunk_length_eq]; omega)
  | succ k ih =>
    intro p hk
    by_cases hp : p < file.length
    · have hch : (file.drop p).take 4096 ≠ [] := chunk_ne_nil_iff.mpr hp
      cases hf : bfind ((file.drop p).take 4096) tok with
      | some j =>
        right
        rw [scan_eq_of_found hch hf]
        have hocc : occursAt file tok (p + j) := occursAt_of_chunk (bfind_sound hf)
        exact ⟨hocc, by omega, occursAt_bound hocc hd⟩
      | none =>
        rw [scan_eq_of_cont hch hf]
        have hchlen : ((file.drop p).take 4096).length = min 4096 (file.length - p) :=
          chunk_length_eq
        by_cases hfull : ((file.drop p).take 4096).length = 4096
        · rw [hfull]
          rcases ih (p + 4096) (by omega) with h | ⟨h1, h2, h3⟩
          · exact Or.inl h
          · exact Or.inr ⟨h1, by omega, h3⟩
        · -- partial window: the next read position is end of file
          have hpL : p + ((file.drop p).take 4096).length = file.length := by omega
          left
          rw [hpL]
          exact scan_eq_of_eof (by rw [← List.length_eq_zero, chunk_length_eq]; omega)
    · left
      exact scan_eq_of_eof (by rw [← List.length_eq_zero, chunk_length_eq]; omega)

/-- Completeness of the look-ahead scan: if some occurrence of the
delimiter lies entirely inside one of the scan's windows, the scan does
not run off to the end of the file. -/
theorem scan_complete {file tok : List Nat} (hd : tok ≠ []) :
    ∀ (k p : Nat), file.length - p ≤ k →
      (∃ o, occursAt file tok o ∧ windowContained tok.length p o) →
      scan_for_delim file tok p p ≠ file.length := by
  have hdpos : 0 < tok.length := List.length_pos.mpr hd
  intro k
  induction k with
  | zero =>
    intro p hk ⟨o, hocc, t, hw1, hw2⟩
    have := occursAt_bound hocc hd
    have : False := by omega
    exact absurd trivial (by simp [this])
  | succ k ih =>
    intro p hk ⟨o, hocc, t, hw1, hw2⟩
    have hob := occursAt_bound hocc hd
    by_cases hp : p < file.length
    · have hch : (file.drop p).take 4096 ≠ [] := chunk_ne_nil_iff.mpr hp
      cases hf : bfind ((file.drop p).take 4096) tok with
      | some j =>
        rw [scan_eq_of_found hch hf]
        have hocc2 : occursAt file tok (p + j) := occursAt_of_chunk (bfind_sound hf)
        have := occursAt_bound hocc2 hd
        omega
      | none =>
        rw [scan_eq_of_cont hch hf]
        have hchlen : ((file.drop p).take 4096).length = min 4096 (file.length - p) :=
          chunk_length_eq
        cases t with
        | zero =>
          exfalso
          refine bfind_none hf (o - p) (chunk_of_occursAt hocc (by omega) ?_)
          omega
        | succ t' =>
          by_cases hfull : ((file.drop p).take 4096).length = 4096
          · rw [hfull]
            exact ih (p + 4096) (by omega)
              ⟨o, hocc, t', by omega, by omega⟩
          · omega
    · exfalso
      omega

/-! ## Lemmas: `sortedSet` -/

theorem mem_sortedInsert (x a : Nat) (l : List Nat) :
    a ∈ sortedInsert x l ↔ a = x ∨ a ∈ l := by
  induction l with
  | nil => simp [sortedInsert]
  | cons y ys ih =>
    rw [sortedInsert]
    by_cases h1 : x < y
    · rw [if_pos h1]
      simp
    · rw [if_neg h1]
      by_cases h2 : x = y
      · rw [if_pos h2]
        subst h2
        simp only [List.mem_cons]
        tauto
      · rw [if_neg h2]
        simp only [List.mem_cons, ih]
        tauto

theorem pairwise_sortedInsert (x : Nat) (l : List Nat)
    (h : l.Pairwise (· < ·)) : (sortedInsert x l).Pairwise (· < ·) := by
  induction l with
  | nil => simp [sortedInsert]
  | cons y ys ih =>
    rw [List.pairwise_cons] at h
    obtain ⟨hy, hys⟩ := h
    rw [sortedInsert]
    by_cases h1 : x < y
    · rw [if_pos h1]
      rw [List.pairwise_cons]
      refine ⟨?_, List.pairwise_cons.mpr ⟨hy, hys⟩⟩
      intro b hb
      rcases List.mem_cons.mp hb with hb | hb
      · omega
      · have := hy b hb
        omega
    · rw [if_neg h1]
      by_cases h2 : x = y
      · rw [if_pos h2]
        exact List.pairwise_cons.mpr ⟨hy, hys⟩
      · rw [if_neg h2]
        rw [List.pairwise_cons]
        refine ⟨?_, ih hys⟩
        intro b hb
        rcases (mem_sortedInsert x b ys).mp hb with hb | hb
        · omega
        · exact hy b hb

theorem length_sortedInsert (x : Nat) (l : List Nat) :
    (sortedInsert x l).length ≤ l.length + 1 := by
  induction l with
  | nil => simp [sortedInsert]
  | cons y ys ih =>
    rw [sortedInsert]
    by_cases h1 : x < y
    · rw [if_pos h1]
      simp
    · rw [if_neg h1]
      by_cases h2 : x = y
      · rw [if_pos h2]
        simp
      · rw [if_neg h2]
        simp only [List.length_cons]
        omega

theorem mem_sortedSet (a : Nat) (l : List Nat) : a ∈ sortedSet l ↔ a ∈ l := by
  induction l with
  | nil => simp [sortedSet]
  | cons y ys ih =>
    rw [sortedSet, List.foldr_cons]
    rw [mem_sortedInsert]
    rw [sortedSet] at ih
    rw [ih]
    simp

theorem pairwise_sortedSet (l : List Nat) : (sortedSet l).Pairwise (· < ·) := by
  induction l with
  | nil => simp [sortedSet]
  | cons y ys ih =>
    rw [sortedSet, List.foldr_cons]
    exact pairwise_sortedInsert y _ ih

theorem length_sortedSet (l : List Nat) : (sortedSet l).length ≤ l.length := by
  induction l with
  | nil => simp [sortedSet]
  | cons y ys ih =>
    rw [sortedSet, List.foldr_cons]
    calc (sortedInsert y (sortedSet ys)).length ≤ (sortedSet ys).length + 1 :=
          length_sortedInsert y _
      _ ≤ ys.length + 1 := by omega
      _ = (y :: ys).length := (List.length_cons y ys).symm

/-- In a strictly increasing list of naturals that contains `0`, the
head is `0`. -/
theorem head_of_pairwise_mem_zero {l : List Nat} (hp : l.Pairwise (· < ·)) (h0 : (0 : Nat) ∈ l) :
    l.head? = some 0 := by
  cases l with
  | nil => cases h0
  | cons a t =>
    rw [List.head?_cons]
    rcases List.mem_cons.mp h0 with h | h
    · rw [← h]
    · rw [List.pairwise_cons] at hp
      have := hp.1 0 h
      omega

/-- In a strictly increasing list that contains its upper bound `M`, the
last element is `M`. -/
theorem getLast_of_pairwise_mem_max {l : List Nat} {M : Nat} (hp : l.Pairwise (· < ·))
    (hM : M ∈ l) (hub : ∀ x ∈ l, x ≤ M) : l.getLast? = some M := by
  induction l with
  | nil => cases hM
  | cons a t ih =>
    cases t with
    | nil =>
      rcases List.mem_cons.mp hM with h | h
      · rw [← h]
        rfl
      · cases h
    | cons b t' =>
      rw [List.getLast?_cons_cons]
      rw [List.pairwise_cons] at hp
      refine ih hp.2 ?_ (fun x hx => hub x (List.mem_cons_of_mem _ hx))
      rcases List.mem_cons.mp hM with h | h
      · exfalso
        have hb : b ∈ a :: b :: t' := List.mem_cons_of_mem _ (List.mem_cons_self _ _)
        have h1 := hp.1 b (List.mem_cons_self _ _)
        have h2 := hub b hb
        omega
      · exact h

theorem foldl_merge_eq_foldl_spec (merges : List ((Nat × Nat) × Nat)) :
    ∀ init : List Nat,
      merges.foldl (fun indices r => merge indices r.1 r.2) init =
        merges.foldl (fun indices r => mergePassSpec indices r.1 r.2) init := by
  induction merges with
  | nil => intro init; rfl
  | cons r rs ih =>
    intro init
    rw [List.foldl_cons, List.foldl_cons, merge_eq_mergePassSpec, ih]

theorem foldl_merge_length_le (merges : List ((Nat × Nat) × Nat)) :
    ∀ init : List Nat,
      (merges.foldl (fun indices r => merge indices r.1 r.2) init).length ≤ init.length := by
  induction merges with
  | nil => intro init; exact Nat.le_refl _
  | cons r rs ih =>
    intro init
    rw [List.foldl_cons]
    calc (rs.foldl (fun indices r => merge indices r.1 r.2) (merge init r.1 r.2)).length
        ≤ (merge init r.1 r.2).length := ih _
      _ ≤ init.length := by
          rw [merge_eq_mergePassSpec]
          have := mergePassSpec_length r.1 r.2 init.length init (Nat.le_refl _)
          omega

/-! ## Claim theorems -/

/-- C1: for every input string, BPE encode seeds the working sequence
with one integer id per UTF-8 byte of the string (each an id in 0-255),
then applies each merge rule exactly once in merge rule list order, each
application being the single left-to-right non-overlapping replacement
pass `mergePassSpec` (a match at a position consumes both elements,
appends the rule's new id, and resumes after them); the result after the
last rule's pass is returned. -/
theorem c1_bpe_encode_seeds_utf8_and_applies_rules_in_order
    (merges : List ((Nat × Nat) × Nat)) (s : String) :
    bpe_encode merges s =
        merges.foldl (fun indices r => mergePassSpec indices r.1 r.2) (utf8Bytes s) ∧
      (∀ x ∈ utf8Bytes s, x < 256) ∧
      (∀ (indices : List Nat) (pair : Nat × Nat) (new_index : Nat),
        merge indices pair new_index = mergePassSpec indices pair new_index) := by
  refine ⟨?_, ?_, fun indices pair n => merge_eq_mergePassSpec indices pair n⟩
  · rw [bpe_encode, foldl_merge_eq_foldl_spec]
  · intro x hx
    have := utf8Bytes_lt x hx
    omega

/-- C4: for every (Lean-representable, i.e. valid Unicode) string,
decode after encode is the identity, exactly, for both the code-point
tokenizer variant and the raw-byte tokenizer variant. -/
theorem c4_roundtrip_char_and_byte (s : String) :
    char_decode (char_encode s) = some s ∧ byte_decode (byte_encode s) = some s :=
  ⟨char_decode_encode s, byte_decode_encode s⟩

/-- C5: applying the single merge rule (pair = (5,5), new id = 9) to the
working sequence [5,5,5] yields [9,5] - not [9,9] and not [5,9]:
matches are consumed left to right without overlap. -/
theorem c5_non_overlap_five_five :
    merge [5, 5, 5] (5, 5) 9 = [9, 5] ∧
      merge [5, 5, 5] (5, 5) 9 ≠ [9, 9] ∧ merge [5, 5, 5] (5, 5) 9 ≠ [5, 9] := by
  have h : merge [5, 5, 5] (5, 5) 9 = [9, 5] := by
    rw [merge_eq_mergePassSpec]
    decide
  refine ⟨h, ?_, ?_⟩ <;> rw [h] <;> decide

/-- C6: with an empty merge rule list, BPE encode returns exactly the
raw-byte tokenizer's encoding (the raw UTF-8 byte values as ids). -/
theorem c6_empty_merges_is_byte_encode (s : String) :
    bpe_encode [] s = byte_encode s := rfl

/-- C10: a single merge pass never lengthens its input - its output
length is exactly the input length minus the number of non-overlapping
matches replaced - and consequently BPE encode's output is never longer
than the UTF-8 byte count of the input string. -/
theorem c10_merge_shrinks_and_encode_bounded :
    (∀ (indices : List Nat) (pair : Nat × Nat) (new_index : Nat),
        (merge indices pair new_index).length = indices.length - matchCount indices pair) ∧
      (∀ (indices : List Nat) (pair : Nat × Nat) (new_index : Nat),
        (merge indices pair new_index).length ≤ indices.length) ∧
      (∀ (merges : List ((Nat × Nat) × Nat)) (s : String),
        (bpe_encode merges s).length ≤ (utf8Bytes s).length) := by
  refine ⟨?_, ?_, ?_⟩
  · intro indices pair n
    rw [merge_eq_mergePassSpec]
    exact (mergePassSpec_length pair n indices.length indices (Nat.le_refl _)).1
  · intro indices pair n
    rw [merge_eq_mergePassSpec]
    have := mergePassSpec_length pair n indices.length indices (Nat.le_refl _)
    omega
  · intro merges s
    rw [bpe_encode]
    exact foldl_merge_length_le merges (utf8Bytes s)

/-- C7: BPE decode fails with the unknown-token error whenever some id is
absent from the vocabulary (it never substitutes a default); when all ids
are present, the looked-up byte sequences are concatenated in order and
parsed as UTF-8, returning the decoded string when the concatenation is
valid UTF-8 (an encoding of some string) and failing with the decode
error when it is not. -/
theorem c7_bpe_decode_error_modes (vocab : Nat → Option (List Nat)) (indices : List Nat) :
    ((∃ i ∈ indices, vocab i = none) → bpe_decode vocab indices = .error .unknownToken) ∧
      ((∀ i ∈ indices, vocab i ≠ none) →
        (∀ s : String,
            utf8Bytes s = ((indices.map vocab).map (fun x => x.getD [])).flatten →
            bpe_decode vocab indices = .ok s) ∧
          ((¬ ∃ s : String,
              utf8Bytes s = ((indices.map vocab).map (fun x => x.getD [])).flatten) →
            bpe_decode vocab indices = .error .decodeError)) := by
  constructor
  · intro ⟨i, hi, hnone⟩
    have hmem : none ∈ indices.map vocab := by
      rw [List.mem_map]
      exact ⟨i, hi, hnone⟩
    rw [bpe_decode, joinBytes_of_mem_none hmem]
  · intro hall
    have hsome : ∀ x ∈ indices.map vocab, x ≠ none := by
      intro x hx
      rw [List.mem_map] at hx
      obtain ⟨i, hi, hxi⟩ := hx
      rw [← hxi]
      exact hall i hi
    have hjoin := joinBytes_of_all_some hsome
    have hstep : ∀ bs : List Nat, joinBytes (indices.map vocab) = some bs →
        bpe_decode vocab indices =
          match utf8DecodeNats bs with
          | none => .error .decodeError
          | some pts => .ok ⟨pts.map Char.ofNat⟩ := by
      intro bs h
      rw [bpe_decode, h]
    constructor
    · intro s hs
      rw [hstep _ hjoin, ← hs, utf8Bytes, utf8DecodeNats_flatMap]
      show Except.ok (⟨(s.data.map Char.toNat).map Char.ofNat⟩ : String) = Except.ok s
      rw [List.map_map]
      have : (Char.ofNat ∘ Char.toNat) = id := by
        funext c
        exact Char.ofNat_toNat c
      rw [this, List.map_id]
    · intro hno
      rw [hstep _ hjoin]
      cases hdec : utf8DecodeNats ((indices.map vocab).map (fun x => x.getD [])).flatten with
      | none => rfl
      | some pts =>
        exfalso
        obtain ⟨hval, henc⟩ := utf8DecodeNats_sound hdec
        refine hno ⟨⟨pts.map Char.ofNat⟩, ?_⟩
        rw [utf8Bytes]
        show (pts.map Char.ofNat).flatMap (fun c => utf8EncodeCharNat c.toNat) = _
        rw [List.flatMap_map]
        calc pts.flatMap (fun v => utf8EncodeCharNat (Char.ofNat v).toNat)
            = pts.flatMap utf8EncodeCharNat := by
              apply List.flatMap_congr
              intro v hv
              rw [char_toNat_ofNat (hval v hv)]
          _ = _ := henc

/-- C9: the compression-ratio utility raises an unhandled division-by-
zero error on the empty id sequence, and for every non-empty id sequence
returns exactly (UTF-8 byte length of the string) / (number of ids). -/
theorem c9_compression_ratio_zero_division :
    get_compression_ratio "" [] = .error .zeroDivisionError ∧
      ∀ (s : String) (ids : List Nat), ids ≠ [] →
        get_compression_ratio s ids =
          .ok (((utf8Bytes s).length : ℚ) / (ids.length : ℚ)) := by
  constructor
  · rfl
  · intro s ids h
    rw [get_compression_ratio]
    simp only [if_neg (fun hz => h (List.eq_nil_of_length_eq_zero hz))]

/-- Witness for C9 at concrete inputs: the empty sequence fails with the
division error, and "hello" (5 UTF-8 bytes) with 2 tokens has ratio 5/2,
the spec's own example value 2.5. -/
theorem c9_witness :
    get_compression_ratio "" [] = .error .zeroDivisionError ∧
      get_compression_ratio "hello" [7, 9] = .ok ((5 : ℚ) / 2) := by
  refine ⟨c9_compression_ratio_zero_division.1, ?_⟩
  rw [c9_compression_ratio_zero_division.2 "hello" [7, 9] (by decide)]
  norm_num [show utf8Bytes "hello" = [104, 101, 108, 108, 111] from rfl]

/-- Witness for C7 at concrete inputs: id 1 missing from a vocabulary
containing only id 0 ↦ b"h" makes decode fail with the unknown-token
error; with all ids present, [0] decodes to "h"; a vocabulary entry that
is not valid UTF-8 (the lone byte 0xFF) makes decode fail with the
decode error. -/
theorem c7_witness :
    bpe_decode (fun i => if i = 0 then some [104] else none) [0, 1] =
        .error .unknownToken ∧
      bpe_decode (fun i => if i = 0 then some [104] else none) [0] = .ok "h" ∧
      bpe_decode (fun i => if i = 0 then some [255] else none) [0] =
        .error .decodeError := by
  refine ⟨?_, ?_, ?_⟩
  · exact (c7_bpe_decode_error_modes (fun i => if i = 0 then some [104] else none) [0, 1]).1
      ⟨1, by decide, rfl⟩
  · exact ((c7_bpe_decode_error_modes (fun i => if i = 0 then some [104] else none) [0]).2
      (by intro i hi; rw [List.mem_singleton] at hi; subst hi; simp)).1 "h" rfl
  · refine ((c7_bpe_decode_error_modes (fun i => if i = 0 then some [255] else none) [0]).2
      (by intro i hi; rw [List.mem_singleton] at hi; subst hi; simp)).2 ?_
    intro ⟨s, hs⟩
    have h255 : (255 : Nat) ∈ utf8Bytes s := by
      rw [hs]
      decide
    have := utf8Bytes_lt 255 h255
    omega

/-- The pre-`sorted(set(...))` boundary list of
`find_chunk_boundaries_core`, written as a map over the index range. -/
theorem find_chunk_boundaries_core_eq (file : List Nat) (k : Nat) (delim : List Nat) :
    find_chunk_boundaries_core file k delim =
      sortedSet ((List.range (k + 1)).map (fun i =>
        if i = k then file.length
        else if 1 ≤ i ∧ i < k then
          scan_for_delim file delim (i * (file.length / k)) (i * (file.length / k))
        else i * (file.length / k))) := rfl

/-- C2: for every byte source, every k > 0, and every non-empty
delimiter, the returned boundary sequence is strictly increasing, begins
at 0, ends at the file length, has at most k+1 elements, and every
element other than 0 and the file length is the start offset of a
delimiter occurrence at or after the naive uniform guess of some
interior boundary index. -/
theorem c2_chunk_boundaries_contract (file : List Nat) (k : Nat) (delim : List Nat)
    (hk : 0 < k) (hd : delim ≠ []) :
    (find_chunk_boundaries_core file k delim).Pairwise (· < ·) ∧
      (find_chunk_boundaries_core file k delim).head? = some 0 ∧
      (find_chunk_boundaries_core file k delim).getLast? = some file.length ∧
      (find_chunk_boundaries_core file k delim).length ≤ k + 1 ∧
      ∀ x ∈ find_chunk_boundaries_core file k delim,
        x = 0 ∨ x = file.length ∨
          (∃ bi, 1 ≤ bi ∧ bi < k ∧ bi * (file.length / k) ≤ x ∧ occursAt file delim x) := by
  rw [find_chunk_boundaries_core_eq]
  set g : Nat → Nat := fun i =>
    if i = k then file.length
    else if 1 ≤ i ∧ i < k then
      scan_for_delim file delim (i * (file.length / k)) (i * (file.length / k))
    else i * (file.length / k) with hg
  set blist := (List.range (k + 1)).map g with hblist
  have hmem0 : (0 : Nat) ∈ blist := by
    rw [hblist, List.mem_map]
    refine ⟨0, List.mem_range.mpr (by omega), ?_⟩
    rw [hg]
    simp only [if_neg (by omega : ¬ (0 : Nat) = k), if_neg (by omega : ¬ (1 ≤ (0 : Nat) ∧ 0 < k)),
      Nat.zero_mul]
  have hmemL : file.length ∈ blist := by
    rw [hblist, List.mem_map]
    exact ⟨k, List.mem_range.mpr (by omega), by rw [hg]; simp⟩
  have hub : ∀ x ∈ blist, x ≤ file.length := by
    intro x hx
    rw [hblist, List.mem_map] at hx
    obtain ⟨i, hi, hxi⟩ := hx
    rw [List.mem_range] at hi
    rw [hg] at hxi
    simp only [] at hxi
    by_cases hik : i = k
    · rw [if_pos hik] at hxi
      omega
    · rw [if_neg hik] at hxi
      by_cases hint : 1 ≤ i ∧ i < k
      · rw [if_pos hint] at hxi
        rcases @scan_sound file delim hd file.length (i * (file.length / k)) (by omega) with h | ⟨_, _, h3⟩
        · omega
        · have : 0 < delim.length := List.length_pos.mpr hd
          omega
      · rw [if_neg hint] at hxi
        subst hxi
        calc i * (file.length / k) ≤ k * (file.length / k) :=
              Nat.mul_le_mul_right _ (by omega)
          _ ≤ file.length := by
              rw [Nat.mul_comm]
              exact Nat.div_mul_le_self file.length k
  refine ⟨pairwise_sortedSet blist, ?_, ?_, ?_, ?_⟩
  · exact head_of_pairwise_mem_zero (pairwise_sortedSet blist) ((mem_sortedSet 0 blist).mpr hmem0)
  · exact getLast_of_pairwise_mem_max (pairwise_sortedSet blist)
      ((mem_sortedSet _ blist).mpr hmemL)
      (fun x hx => hub x ((mem_sortedSet x blist).mp hx))
  · calc (sortedSet blist).length ≤ blist.length := length_sortedSet blist
      _ = k + 1 := by rw [hblist, List.length_map, List.length_range]
  · intro x hx
    have hx' := (mem_sortedSet x blist).mp hx
    rw [hblist, List.mem_map] at hx'
    obtain ⟨i, hi, hxi⟩ := hx'
    rw [List.mem_range] at hi
    rw [hg] at hxi
    simp only [] at hxi
    by_cases hik : i = k
    · rw [if_pos hik] at hxi
      exact Or.inr (Or.inl hxi.symm)
    · rw [if_neg hik] at hxi
      by_cases hint : 1 ≤ i ∧ i < k
      · rw [if_pos hint] at hxi
        rcases @scan_sound file delim hd file.length (i * (file.length / k)) (by omega) with h | ⟨h1, h2, _⟩
        · exact Or.inr (Or.inl (by omega))
        · exact Or.inr (Or.inr ⟨i, hint.1, hint.2, by omega, by rw [← hxi]; exact h1⟩)
      · rw [if_neg hint] at hxi
        left
        have h0 : i = 0 := by omega
        subst h0
        rw [Nat.zero_mul] at hxi
        omega

/-- Witness for C2 at concrete input: file bytes [0,1,0], k = 2,
delimiter [1]; boundaries are [0,1,3] and the interior point 1 is a
delimiter occurrence at or after the naive guess 1·(3/2) = 1. -/
theorem c2_witness :
    0 < 2 ∧ ([1] : List Nat) ≠ [] ∧
      ((find_chunk_boundaries_core [0, 1, 0] 2 [1]).Pairwise (· < ·) ∧
        (find_chunk_boundaries_core [0, 1, 0] 2 [1]).head? = some 0 ∧
        (find_chunk_boundaries_core [0, 1, 0] 2 [1]).getLast? =
          some ([0, 1, 0] : List Nat).length ∧
        (find_chunk_boundaries_core [0, 1, 0] 2 [1]).length ≤ 2 + 1 ∧
        ∀ x ∈ find_chunk_boundaries_core [0, 1, 0] 2 [1],
          x = 0 ∨ x = ([0, 1, 0] : List Nat).length ∨
            (∃ bi, 1 ≤ bi ∧ bi < 2 ∧ bi * (([0, 1, 0] : List Nat).length / 2) ≤ x ∧
              occursAt [0, 1, 0] [1] x)) :=
  ⟨by decide, by decide, c2_chunk_boundaries_contract [0, 1, 0] 2 [1] (by decide) (by decide)⟩

/-- C3 (amended): an interior boundary is snapped to the file length
only when no occurrence of the delimiter lies entirely within one of the
scan's 4096-byte look-ahead windows starting at that boundary's naive
guess; whenever such a fully window-contained occurrence exists, the
boundary coincides with the start offset of a delimiter occurrence at or
after the guess. (An occurrence that straddles every window boundary may
be missed, snapping the boundary to the file length; see the
counterexample.) -/
theorem c3_amended_interior_snap (file delim : List Nat) (k bi : Nat)
    (hk : 0 < k) (hd : delim ≠ []) (h1 : 1 ≤ bi) (h2 : bi < k)
    (hex : ∃ o, occursAt file delim o ∧
      windowContained delim.length (bi * (file.length / k)) o) :
    occursAt file delim
        (scan_for_delim file delim (bi * (file.length / k)) (bi * (file.length / k))) ∧
      bi * (file.length / k) ≤
        scan_for_delim file delim (bi * (file.length / k)) (bi * (file.length / k)) ∧
      scan_for_delim file delim (bi * (file.length / k)) (bi * (file.length / k)) ≠
        file.length := by
  have hne := @scan_complete file delim hd file.length (bi * (file.length / k)) (by omega) hex
  rcases @scan_sound file delim hd file.length (bi * (file.length / k)) (by omega) with
    h | ⟨ho, hge, _⟩
  · exact absurd h hne
  · exact ⟨ho, hge, hne⟩

/-- Witness for C3 (amended) at concrete input: file [0,1,0], k = 2,
interior index 1 with naive guess 1·(3/2) = 1; the delimiter [1] occurs
at offset 1 inside the first look-ahead window, and the boundary snaps
to that occurrence. -/
theorem c3_amended_witness :
    0 < 2 ∧ ([1] : List Nat) ≠ [] ∧ 1 ≤ 1 ∧ 1 < 2 ∧
      (∃ o, occursAt [0, 1, 0] [1] o ∧
        windowContained ([1] : List Nat).length
          (1 * (([0, 1, 0] : List Nat).length / 2)) o) ∧
      (occursAt [0, 1, 0] [1]
          (scan_for_delim [0, 1, 0] [1] (1 * (([0, 1, 0] : List Nat).length / 2))
            (1 * (([0, 1, 0] : List Nat).length / 2))) ∧
        1 * (([0, 1, 0] : List Nat).length / 2) ≤
          scan_for_delim [0, 1, 0] [1] (1 * (([0, 1, 0] : List Nat).length / 2))
            (1 * (([0, 1, 0] : List Nat).length / 2)) ∧
        scan_for_delim [0, 1, 0] [1] (1 * (([0, 1, 0] : List Nat).length / 2))
            (1 * (([0, 1, 0] : List Nat).length / 2)) ≠
          ([0, 1, 0] : List Nat).length) := by
  have hex : ∃ o, occursAt [0, 1, 0] [1] o ∧
      windowContained ([1] : List Nat).length
        (1 * (([0, 1, 0] : List Nat).length / 2)) o := by
    refine ⟨1, ?_, 0, by decide, by decide⟩
    decide
  exact ⟨by decide, by decide, by decide, by decide, hex,
    c3_amended_interior_snap [0, 1, 0] [1] 2 1 (by decide) (by decide) (by decide) (by decide)
      hex⟩

theorem bfind_replicate_zero_one : ∀ n : Nat,
    bfind (List.replicate n 0 ++ [1]) [1, 1] = none := by
  intro n
  induction n with
  | zero => decide
  | succ m ih =>
    rw [List.replicate_succ, List.cons_append, bfind]
    simp [List.isPrefixOf, ih]

theorem straddleFile_length : straddleFile.length = 8194 := by
  rw [straddleFile, List.length_append, List.length_replicate]
  rfl

/-- The look-ahead scan started at the naive guess 4097 misses the
delimiter occurrence at 8192 of `straddleFile`, because its two bytes
are split across the first window [4097, 8193) and the second
[8193, 8194), and snaps to the file length instead. -/
theorem scan_straddleFile :
    scan_for_delim straddleFile [1, 1] 4097 4097 = straddleFile.length := by
  have hdrop1 : straddleFile.drop 4097 = List.replicate 4095 0 ++ [1, 1] := by
    rw [straddleFile, List.drop_append_of_le_length (by rw [List.length_replicate]; omega),
      List.drop_replicate]
  have hchunk1 : (straddleFile.drop 4097).take 4096 = List.replicate 4095 0 ++ [1] := by
    rw [hdrop1, List.take_append_eq_append_take,
      List.take_of_length_le (by rw [List.length_replicate]; omega), List.length_replicate]
    rfl
  have hlen1 : ((straddleFile.drop 4097).take 4096).length = 4096 := by
    rw [hchunk1, List.length_append, List.length_replicate]
    rfl
  rw [scan_eq_of_cont (chunk_ne_nil_iff.mpr (by rw [straddleFile_length]; omega))
      (by rw [hchunk1]; exact bfind_replicate_zero_one 4095),
    hlen1]
  have hdrop2 : straddleFile.drop 8193 = [1] := by
    rw [straddleFile, show (8193 : Nat) = (List.replicate 8192 (0 : Nat)).length + 1 by
      rw [List.length_replicate], List.drop_append]
    rfl
  have hchunk2 : (straddleFile.drop 8193).take 4096 = [1] := by
    rw [hdrop2]
    rfl
  have hlen2 : ((straddleFile.drop 8193).take 4096).length = 1 := by
    rw [hchunk2]
    rfl
  rw [show (4097 : Nat) + 4096 = 8193 by omega]
  rw [scan_eq_of_cont (chunk_ne_nil_iff.mpr (by rw [straddleFile_length]; omega))
      (by rw [hchunk2]; decide), hlen2]
  exact scan_eq_of_eof (by
    rw [List.drop_eq_nil_of_le (by rw [straddleFile_length]), List.take_nil])

/-- Counterexample to C3 as stated: in `straddleFile` (length 8194) with
k = 2 and delimiter [1,1], the single interior boundary's naive guess is
1·(8194/2) = 4097 and the delimiter occurs at 8192 ≥ 4097, yet the scan
snaps the boundary to the file length 8194, which is not the start
offset of any occurrence: the code misses an occurrence that straddles
its 4096-byte look-ahead window boundary. -/
theorem c3_counterexample :
    1 * (straddleFile.length / 2) = 4097 ∧
      (∃ o, 4097 ≤ o ∧ occursAt straddleFile [1, 1] o) ∧
      scan_for_delim straddleFile [1, 1] 4097 4097 = straddleFile.length ∧
      ¬ occursAt straddleFile [1, 1]
          (scan_for_delim straddleFile [1, 1] 4097 4097) := by
  have hocc : occursAt straddleFile [1, 1] 8192 := by
    rw [occursAt, straddleFile,
      @List.drop_left' Nat (List.replicate 8192 (0 : Nat)) [1, 1] 8192
        (by rw [List.length_replicate])]
  refine ⟨by rw [straddleFile_length], ⟨8192, by omega, hocc⟩, scan_straddleFile, ?_⟩
  rw [scan_straddleFile, occursAt, List.drop_eq_nil_of_le (Nat.le_refl _)]
  intro h
  have := h.length_le
  simp at this

/-- C8 behaviour cited by the code-bug verdict: on a 10-byte file, an
empty delimiter does NOT fail fast - the finder returns the boundary
sequence [0, 5, 10] (every interior guess snaps to itself because
`bytes.find(b"") = 0`) - while `desired_num_chunks = 0` raises
`ZeroDivisionError` and `desired_num_chunks = -1` raises `IndexError`,
neither of which is an `InvalidArgument`-style validation failure. -/
theorem c8_no_invalid_argument_validation :
    find_chunk_boundaries (List.replicate 10 0) 2 [] = .ok [0, 5, 10] ∧
      find_chunk_boundaries (List.replicate 10 0) 0 [1] = .error .zeroDivisionError ∧
      find_chunk_boundaries (List.replicate 10 0) (-1) [1] = .error .indexError := by
  refine ⟨?_, rfl, rfl⟩
  have hcore : find_chunk_boundaries_core (List.replicate 10 0) 2 [] =
      sortedSet [0, scan_for_delim (List.replicate 10 0) [] 5 5, 10] := rfl
  have hscan : scan_for_delim (List.replicate 10 0) [] 5 5 = 5 := by
    rw [@scan_eq_of_found (List.replicate 10 0) [] 5 5 0 (by decide) (by decide)]
  show Except.ok (find_chunk_boundaries_core (List.replicate 10 0) 2 []) = _
  rw [hcore, hscan, show sortedSet [0, 5, 10] = [0, 5, 10] from by decide]

end CS336
